import Mathlib

/-!
Verification development for the act-feed-clean-go content-aggregation and
summarization pipeline.  Go strings are modelled as lists of runes
(`List Char`); where the source manipulates byte indices
(`strings.LastIndex`, `len` on a string) the model works on the UTF-8 byte
sequence of the rune list, so the byte/rune distinction of the source is
preserved.  External collaborators (the model caller, the `unicode`
classification tables, the rate limiter) are abstracted as parameters or
explicit outcome data, as the spec treats them as boundary interfaces.
-/

namespace ActFeedClean

/-- Go strings viewed as rune sequences. -/
abbrev Str := List Char

/-- Rune sequence of a Lean string literal. -/
def str (s : String) : Str := s.data

/-- Decimal representation of a natural number, as produced by Go's `%d` verb. -/
def natStr (n : Nat) : Str := (Nat.repr n).data

instance {ε δ : Type} [DecidableEq ε] [DecidableEq δ] : DecidableEq (Except ε δ) :=
  fun a b =>
    match a, b with
    | .error e, .error f =>
      if h : e = f then isTrue (by rw [h]) else isFalse (by intro hc; cases hc; exact h rfl)
    | .ok x, .ok y =>
      if h : x = y then isTrue (by rw [h]) else isFalse (by intro hc; cases hc; exact h rfl)
    | .error _, .ok _ => isFalse (by intro hc; cases hc)
    | .ok _, .error _ => isFalse (by intro hc; cases hc)

section PatternSearch

variable {α : Type} [DecidableEq α]

/-- The pattern `pat` occurs in `s` starting at position `i`. -/
def OccursAt (s pat : List α) (i : Nat) : Prop := (s.drop i).take pat.length = pat

instance (s pat : List α) (i : Nat) : Decidable (OccursAt s pat i) := by
  unfold OccursAt; exact inferInstance

/-- Search downward from position `n` for the last occurrence of `pat` in `s`.
Mirrors Go's `strings.LastIndex` when started at `s.length`. -/
def lastIndexFrom (s pat : List α) : Nat → Option Nat
  | 0 => if OccursAt s pat 0 then some 0 else none
  | n + 1 => if OccursAt s pat (n + 1) then some (n + 1) else lastIndexFrom s pat n

/-- Go `strings.LastIndex`: index of the last occurrence of `pat` in `s`
(`none` models the `-1` result). -/
def lastIndex (s pat : List α) : Option Nat := lastIndexFrom s pat s.length

/-- Go `strings.Index`: index of the first occurrence of `pat` in `s`
(`none` models the `-1` result). -/
def firstIndex (s pat : List α) : Option Nat :=
  (List.range (s.length + 1)).find? (fun i => decide (OccursAt s pat i))

/-- Whether `pat` occurs anywhere in `s`. -/
def occursSomewhere (s pat : List α) : Bool := (lastIndex s pat).isSome

theorem lastIndexFrom_some_spec (s pat : List α) :
    ∀ n j, lastIndexFrom s pat n = some j → OccursAt s pat j ∧ j ≤ n := by
  intro n
  induction n with
  | zero =>
    intro j h
    unfold lastIndexFrom at h
    split at h
    · exact ⟨by cases h; assumption, by cases h; exact Nat.le_refl 0⟩
    · cases h
  | succ n ih =>
    intro j h
    unfold lastIndexFrom at h
    split at h
    · cases h; exact ⟨by assumption, Nat.le_refl _⟩
    · have := ih j h
      exact ⟨this.1, Nat.le_succ_of_le this.2⟩

theorem lastIndexFrom_ge (s pat : List α) :
    ∀ n i, OccursAt s pat i → i ≤ n → ∃ j, lastIndexFrom s pat n = some j ∧ i ≤ j := by
  intro n
  induction n with
  | zero =>
    intro i hocc hle
    have hi0 : i = 0 := Nat.le_zero.mp hle
    subst hi0
    refine ⟨0, ?_, Nat.le_refl 0⟩
    unfold lastIndexFrom
    simp [hocc]
  | succ n ih =>
    intro i hocc hle
    unfold lastIndexFrom
    by_cases hTop : OccursAt s pat (n + 1)
    · exact ⟨n + 1, by simp [hTop], hle⟩
    · have hi : i ≤ n := by
        rcases Nat.lt_or_ge i (n + 1) with h | h
        · exact Nat.lt_succ_iff.mp h
        · exact absurd (Nat.le_antisymm hle h ▸ hocc) hTop
      rcases ih i hocc hi with ⟨j, hj, hij⟩
      exact ⟨j, by simp [hTop, hj], hij⟩

/-- An occurrence of a non-empty pattern lies inside the list. -/
theorem OccursAt.le_length {s pat : List α} {i : Nat}
    (h : OccursAt s pat i) (hpat : pat ≠ []) : i + pat.length ≤ s.length := by
  unfold OccursAt at h
  have hlen : ((s.drop i).take pat.length).length = pat.length := by rw [h]
  rw [List.length_take, List.length_drop] at hlen
  have hp : 0 < pat.length := List.length_pos.mpr hpat
  omega

theorem lastIndex_ge (s pat : List α) (i : Nat) (hpat : pat ≠ [])
    (hocc : OccursAt s pat i) :
    ∃ j, lastIndex s pat = some j ∧ i ≤ j := by
  have hle : i ≤ s.length := by
    have := hocc.le_length hpat
    have hp : 0 < pat.length := List.length_pos.mpr hpat
    omega
  exact lastIndexFrom_ge s pat s.length i hocc hle

theorem occursSomewhere_of_occursAt (s pat : List α) (i : Nat) (hpat : pat ≠ [])
    (hocc : OccursAt s pat i) : occursSomewhere s pat = true := by
  rcases lastIndex_ge s pat i hpat hocc with ⟨j, hj, _⟩
  unfold occursSomewhere
  rw [hj]
  rfl

/-- Splitting form of an occurrence. -/
theorem occursAt_decompose (s pat : List α) (i : Nat) (h : OccursAt s pat i) :
    s = s.take i ++ pat ++ s.drop (i + pat.length) := by
  unfold OccursAt at h
  conv_lhs => rw [← List.take_append_drop i s]
  rw [List.append_assoc]
  congr 1
  conv_lhs => rw [← List.take_append_drop pat.length (s.drop i)]
  rw [h, List.drop_drop, Nat.add_comm]

theorem occursAt_of_append (s pat pre post : List α)
    (hpost : s = pre ++ pat ++ post) : OccursAt s pat pre.length := by
  unfold OccursAt
  subst hpost
  rw [List.append_assoc, List.drop_append_of_le_length (Nat.le_refl _)]
  simp

end PatternSearch

/-! UTF-8 byte model.  Go strings are UTF-8 byte sequences; `strBytes`
computes the byte sequence of a rune list, so that byte-indexed operations
of the source (`strings.LastIndex`, `len`) can be stated faithfully. -/

/-- UTF-8 encoding of a single rune. -/
def utf8Bytes (c : Char) : List Nat :=
  if c.toNat < 0x80 then [c.toNat]
  else if c.toNat < 0x800 then [0xC0 + c.toNat / 64, 0x80 + c.toNat % 64]
  else if c.toNat < 0x10000 then
    [0xE0 + c.toNat / 4096, 0x80 + c.toNat / 64 % 64, 0x80 + c.toNat % 64]
  else
    [0xF0 + c.toNat / 262144, 0x80 + c.toNat / 4096 % 64,
      0x80 + c.toNat / 64 % 64, 0x80 + c.toNat % 64]

/-- UTF-8 byte sequence of a rune list (the Go string value itself). -/
def strBytes (s : Str) : List Nat := (s.map utf8Bytes).flatten

theorem utf8Bytes_length_pos (c : Char) : 1 ≤ (utf8Bytes c).length := by
  unfold utf8Bytes
  split <;> try simp
  split <;> try simp
  split <;> simp

theorem strBytes_append (s t : Str) : strBytes (s ++ t) = strBytes s ++ strBytes t := by
  unfold strBytes
  rw [List.map_append, List.flatten_append]

theorem length_le_strBytes_length (s : Str) : s.length ≤ (strBytes s).length := by
  induction s with
  | nil => simp [strBytes]
  | cons c rest ih =>
    have : strBytes (c :: rest) = utf8Bytes c ++ strBytes rest := by
      unfold strBytes; simp
    rw [this, List.length_append, List.length_cons]
    have := utf8Bytes_length_pos c
    omega

/-- A rune-level occurrence yields a byte-level occurrence at the byte
offset of its rune position. -/
theorem strBytes_occursAt (s pat : Str) (i : Nat)
    (hocc : OccursAt s pat i) :
    OccursAt (strBytes s) (strBytes pat) (strBytes (s.take i)).length := by
  have hpost := occursAt_decompose s pat i hocc
  apply occursAt_of_append (strBytes s) (strBytes pat) (strBytes (s.take i))
    (strBytes (s.drop (i + pat.length)))
  rw [← strBytes_append, ← strBytes_append, ← hpost]

/-- The byte offset of a rune position is at least the rune position. -/
theorem take_strBytes_length_ge (s : Str) (i : Nat) (hle : i ≤ s.length) :
    i ≤ (strBytes (s.take i)).length := by
  have h1 : (s.take i).length = i := by
    rw [List.length_take]; omega
  calc i = (s.take i).length := h1.symm
    _ ≤ (strBytes (s.take i)).length := length_le_strBytes_length _

/-! The segmenter (`segmentText` in `internal/cleaner/utils.go` /
`pkg/cleaner/cleaner.go`). -/

/-- Document-boundary marker between combined source documents. -/
def ContentSeparatorL : Str := str "\n\n--- DOCUMENT END ---\n\n"

/-- Standard paragraph separator. -/
def DefaultSeparatorL : Str := str "\n\n"

/-- Lookback distance for the punctuation/whitespace scan (priority 3). -/
def lookback : Nat := 50

/-- Scan runes of `cand` from position `n` down to `start` for the first
rune satisfying `isBreak` (the Go loop
`for i := len-1; i >= start; i--` with `unicode.IsPunct || unicode.IsSpace`). -/
def scanBreak (isBreak : Char → Bool) (cand : Str) (start : Nat) : Nat → Option Nat
  | 0 => if start = 0 ∧ isBreak (cand.getD 0 'A') = true then some 0 else none
  | i + 1 =>
    if i + 1 < start then none
    else if isBreak (cand.getD (i + 1) 'A') = true then some (i + 1)
    else scanBreak isBreak cand start i

/-- The `lastMeaningfulBreak` value of the priority-3 scan, `none` when the
scan finds no punctuation/whitespace rune at or after `start`. -/
def lastMeaningfulBreak (isBreak : Char → Bool) (cand : Str) (start : Nat) : Option Nat :=
  match cand.length with
  | 0 => none
  | n + 1 => scanBreak isBreak cand start n

/-- Priority 3 and 4 of the split-point selection: the punctuation or
whitespace rune within the lookback window, else the hard cut at `maxChars`. -/
def chooseSplitP3 (isBreak : Char → Bool) (cand : Str) (maxChars : Nat) : Nat :=
  match lastMeaningfulBreak isBreak cand (max 0 (cand.length - lookback)) with
  | some i => i + 1
  | none => maxChars

/-- Priority 2 of the split-point selection: the last paragraph separator,
accepted when the resulting split index (a byte index in the source) is at
most `maxChars`. -/
def chooseSplitP2 (isBreak : Char → Bool) (cand : Str) (maxChars : Nat) : Nat :=
  match lastIndex (strBytes cand) (strBytes DefaultSeparatorL) with
  | some idx =>
    if idx + (strBytes DefaultSeparatorL).length ≤ maxChars then
      idx + (strBytes DefaultSeparatorL).length
    else chooseSplitP3 isBreak cand maxChars
  | none => chooseSplitP3 isBreak cand maxChars

/-- The split index chosen for one candidate window, following the source's
priority chain: document-boundary marker, paragraph separator, lookback
punctuation/whitespace scan, hard cut at `maxChars`.  The separator searches
are byte-indexed (`strings.LastIndex`) exactly as in the source. -/
def chooseSplit (isBreak : Char → Bool) (cand : Str) (maxChars : Nat) : Nat :=
  match lastIndex (strBytes cand) (strBytes ContentSeparatorL) with
  | some idx =>
    if idx + (strBytes ContentSeparatorL).length ≤ maxChars then
      idx + (strBytes ContentSeparatorL).length
    else chooseSplitP2 isBreak cand maxChars
  | none => chooseSplitP2 isBreak cand maxChars

/-- The segmentation loop with explicit fuel.  Each iteration of the Go
`for len(current) > 0` loop consumes one unit of fuel; `none` models
non-termination within the given fuel. -/
def segmentTextFuel (isBreak : Char → Bool) : Nat → Str → Nat → Option (List Str)
  | 0, current, _ => if current = [] then some [] else none
  | fuel + 1, current, maxChars =>
    if current = [] then some []
    else if current.length ≤ maxChars then some [current]
    else
      let cand := current.take maxChars
      let k := chooseSplit isBreak cand maxChars
      match segmentTextFuel isBreak fuel (current.drop k) maxChars with
      | some rest => some (current.take k :: rest)
      | none => none

/-- `segmentText` of the source: split `text` into segments of at most
`maxChars` runes.  The rune length of the text bounds the number of loop
iterations whenever each iteration consumes at least one rune. -/
def segmentText (isBreak : Char → Bool) (text : Str) (maxChars : Nat) : Option (List Str) :=
  segmentTextFuel isBreak text.length text maxChars

/-! Bounds on the chosen split index. -/

theorem scanBreak_some_spec (isBreak : Char → Bool) (cand : Str) (start : Nat) :
    ∀ n i, scanBreak isBreak cand start n = some i →
      start ≤ i ∧ i ≤ n ∧ isBreak (cand.getD i 'A') = true := by
  intro n
  induction n with
  | zero =>
    intro i h
    unfold scanBreak at h
    split at h
    · cases h
      rename_i hc
      exact ⟨Nat.le_of_eq hc.1, Nat.le_refl 0, hc.2⟩
    · cases h
  | succ n ih =>
    intro i h
    unfold scanBreak at h
    split at h
    · cases h
    · split at h
      · cases h
        rename_i hlt hbr
        exact ⟨Nat.le_of_not_lt hlt, Nat.le_refl _, hbr⟩
      · have := ih i h
        exact ⟨this.1, Nat.le_succ_of_le this.2.1, this.2.2⟩

theorem scanBreak_ge (isBreak : Char → Bool) (cand : Str) (start : Nat) :
    ∀ n j, start ≤ j → j ≤ n → isBreak (cand.getD j 'A') = true →
      ∃ i, scanBreak isBreak cand start n = some i ∧ j ≤ i := by
  intro n
  induction n with
  | zero =>
    intro j hsj hj0 hbr
    have hj : j = 0 := Nat.le_zero.mp hj0
    subst hj
    have hs : start = 0 := Nat.le_zero.mp hsj
    refine ⟨0, ?_, Nat.le_refl 0⟩
    unfold scanBreak
    rw [if_pos ⟨hs, hbr⟩]
  | succ n ih =>
    intro j hsj hjn hbr
    unfold scanBreak
    by_cases hlt : n + 1 < start
    · omega
    · rw [if_neg hlt]
      by_cases hTop : isBreak (cand.getD (n + 1) 'A') = true
      · exact ⟨n + 1, by rw [if_pos hTop], hjn⟩
      · have hj : j ≤ n := by
          rcases Nat.lt_or_ge j (n + 1) with h | h
          · exact Nat.lt_succ_iff.mp h
          · exact absurd (Nat.le_antisymm hjn h ▸ hbr) hTop
        rcases ih j hsj hj hbr with ⟨i, hi, hji⟩
        exact ⟨i, by rw [if_neg hTop, hi], hji⟩

theorem lastMeaningfulBreak_some_spec (isBreak : Char → Bool) (cand : Str) (start i : Nat)
    (h : lastMeaningfulBreak isBreak cand start = some i) :
    start ≤ i ∧ i < cand.length ∧ isBreak (cand.getD i 'A') = true := by
  unfold lastMeaningfulBreak at h
  split at h
  · cases h
  · rename_i n hn
    have := scanBreak_some_spec isBreak cand start n i h
    exact ⟨this.1, by omega, this.2.2⟩

theorem lastMeaningfulBreak_ge (isBreak : Char → Bool) (cand : Str) (start j : Nat)
    (hsj : start ≤ j) (hj : j < cand.length)
    (hbr : isBreak (cand.getD j 'A') = true) :
    ∃ i, lastMeaningfulBreak isBreak cand start = some i ∧ j ≤ i := by
  unfold lastMeaningfulBreak
  split
  · omega
  · rename_i n hn
    exact scanBreak_ge isBreak cand start n j hsj (by omega) hbr

theorem contentSeparatorBytes_pos : 1 ≤ (strBytes ContentSeparatorL).length := by decide

theorem defaultSeparatorBytes_pos : 1 ≤ (strBytes DefaultSeparatorL).length := by decide

theorem chooseSplitP3_pos (isBreak : Char → Bool) (cand : Str) (maxChars : Nat)
    (hB : 1 ≤ maxChars) : 1 ≤ chooseSplitP3 isBreak cand maxChars := by
  unfold chooseSplitP3
  split
  · omega
  · exact hB

theorem chooseSplitP3_le (isBreak : Char → Bool) (cand : Str) (maxChars : Nat)
    (hc : cand.length ≤ maxChars) : chooseSplitP3 isBreak cand maxChars ≤ maxChars := by
  unfold chooseSplitP3
  split
  · rename_i i hi
    have := lastMeaningfulBreak_some_spec isBreak cand _ i hi
    omega
  · exact Nat.le_refl _

theorem chooseSplitP2_pos (isBreak : Char → Bool) (cand : Str) (maxChars : Nat)
    (hB : 1 ≤ maxChars) : 1 ≤ chooseSplitP2 isBreak cand maxChars := by
  unfold chooseSplitP2
  have hd := defaultSeparatorBytes_pos
  split
  · split
    · omega
    · exact chooseSplitP3_pos isBreak cand maxChars hB
  · exact chooseSplitP3_pos isBreak cand maxChars hB

theorem chooseSplitP2_le (isBreak : Char → Bool) (cand : Str) (maxChars : Nat)
    (hc : cand.length ≤ maxChars) : chooseSplitP2 isBreak cand maxChars ≤ maxChars := by
  unfold chooseSplitP2
  split
  · split
    · omega
    · exact chooseSplitP3_le isBreak cand maxChars hc
  · exact chooseSplitP3_le isBreak cand maxChars hc

theorem chooseSplit_pos (isBreak : Char → Bool) (cand : Str) (maxChars : Nat)
    (hB : 1 ≤ maxChars) : 1 ≤ chooseSplit isBreak cand maxChars := by
  unfold chooseSplit
  have hcs := contentSeparatorBytes_pos
  split
  · split
    · omega
    · exact chooseSplitP2_pos isBreak cand maxChars hB
  · exact chooseSplitP2_pos isBreak cand maxChars hB

theorem chooseSplit_le (isBreak : Char → Bool) (cand : Str) (maxChars : Nat)
    (hc : cand.length ≤ maxChars) : chooseSplit isBreak cand maxChars ≤ maxChars := by
  unfold chooseSplit
  split
  · split
    · omega
    · exact chooseSplitP2_le isBreak cand maxChars hc
  · exact chooseSplitP2_le isBreak cand maxChars hc

/-- Main inductive specification of the segmentation loop: with fuel at
least the rune length of the input and a positive budget, the loop
terminates and produces segments that concatenate back to the input, each
within the budget. -/
theorem segmentTextFuel_spec (isBreak : Char → Bool) (maxChars : Nat) (hB : 1 ≤ maxChars) :
    ∀ fuel current, current.length ≤ fuel →
      ∃ segs, segmentTextFuel isBreak fuel current maxChars = some segs ∧
        segs.flatten = current ∧ ∀ s ∈ segs, s.length ≤ maxChars := by
  intro fuel
  induction fuel with
  | zero =>
    intro current hle
    have hc : current = [] := List.eq_nil_of_length_eq_zero (Nat.le_zero.mp hle)
    subst hc
    exact ⟨[], by simp [segmentTextFuel], by simp, by simp⟩
  | succ fuel ih =>
    intro current hle
    by_cases hnil : current = []
    · subst hnil
      exact ⟨[], by simp [segmentTextFuel], by simp, by simp⟩
    · by_cases hshort : current.length ≤ maxChars
      · refine ⟨[current], ?_, by simp, by simp [hshort]⟩
        unfold segmentTextFuel
        simp [hnil, hshort]
      · have hlong : maxChars < current.length := Nat.lt_of_not_le hshort
        have hcand : (current.take maxChars).length ≤ maxChars := by
          rw [List.length_take]; omega
        have hk1 : 1 ≤ chooseSplit isBreak (current.take maxChars) maxChars :=
          chooseSplit_pos isBreak _ maxChars hB
        have hkB : chooseSplit isBreak (current.take maxChars) maxChars ≤ maxChars :=
          chooseSplit_le isBreak _ maxChars hcand
        have hdrop : (current.drop (chooseSplit isBreak (current.take maxChars) maxChars)).length ≤ fuel := by
          rw [List.length_drop]; omega
        rcases ih _ hdrop with ⟨rest, hrest, hflat, hbound⟩
        refine ⟨current.take (chooseSplit isBreak (current.take maxChars) maxChars) :: rest,
          ?_, ?_, ?_⟩
        · unfold segmentTextFuel
          simp only [if_neg hnil, if_neg hshort]
          rw [hrest]
        · rw [List.flatten_cons, hflat, List.take_append_drop]
        · intro s hs
          rcases List.mem_cons.mp hs with h | h
          · subst h
            rw [List.length_take]
            omega
          · exact hbound s h

/-- A test break predicate used by the concrete witnesses: a rune is a
break point exactly when it is a newline (Go's `unicode.IsSpace` holds of
a newline, so this is a sound concrete instance of the abstracted
`unicode.IsPunct(r) || unicode.IsSpace(r)` classifier). -/
def newlineBreak : Char → Bool := fun c => c = '\n'

/-- C1: for every input text and budget `B ≥ 1`, `segmentText` succeeds and
its segments concatenate in order back to the input text exactly; every
segment has rune length at most `B`; the UTF-8 byte string of the input
factors through the segments, so no segment boundary falls inside a
multi-byte character; a non-empty text of rune length at most `B` yields
exactly one segment equal to the text, and the empty text yields zero
segments. -/
theorem segmentText_reassembles (isBreak : Char → Bool) (T : Str) (B : Nat)
    (hB : 1 ≤ B) :
    (segmentText isBreak T B).isSome = true
    ∧ ((segmentText isBreak T B).getD []).flatten = T
    ∧ (∀ s ∈ (segmentText isBreak T B).getD [], s.length ≤ B)
    ∧ (((segmentText isBreak T B).getD []).map strBytes).flatten = strBytes T
    ∧ (T ≠ [] → T.length ≤ B → (segmentText isBreak T B).getD [] = [T])
    ∧ (T = [] → (segmentText isBreak T B).getD [] = []) := by
  rcases segmentTextFuel_spec isBreak B hB T.length T (Nat.le_refl _) with
    ⟨segs, hsegs, hflat, hbound⟩
  have hval : segmentText isBreak T B = some segs := hsegs
  rw [hval]
  refine ⟨rfl, hflat, hbound, ?_, ?_, ?_⟩
  · have : ∀ l : List Str, (l.map strBytes).flatten = strBytes l.flatten := by
      intro l
      induction l with
      | nil => simp [strBytes]
      | cons a t iht => simp [strBytes_append, iht]
    rw [Option.getD_some, this, hflat]
  · intro hnil hlen
    have hfuel : 1 ≤ T.length := List.length_pos.mpr hnil
    have : segmentTextFuel isBreak T.length T B = some [T] := by
      cases hT : T.length with
      | zero => omega
      | succ n =>
        unfold segmentTextFuel
        rw [if_neg hnil, if_pos hlen]
    rw [hval.symm.trans this]
    rfl
  · intro hnil
    subst hnil
    have : segmentText isBreak [] B = some [] := by
      simp [segmentText, segmentTextFuel]
    rw [hval.symm.trans this]
    rfl

/-- Witness for C1 at a concrete input: `B = 3` on an eight-rune text. -/
theorem segmentText_reassembles_witness :
    1 ≤ 3 ∧
    ((segmentText newlineBreak (str "ab cd ef") 3).isSome = true
    ∧ ((segmentText newlineBreak (str "ab cd ef") 3).getD []).flatten = str "ab cd ef"
    ∧ (∀ s ∈ (segmentText newlineBreak (str "ab cd ef") 3).getD [], s.length ≤ 3)
    ∧ (((segmentText newlineBreak (str "ab cd ef") 3).getD []).map strBytes).flatten
        = strBytes (str "ab cd ef")
    ∧ (str "ab cd ef" ≠ [] → (str "ab cd ef").length ≤ 3 →
        (segmentText newlineBreak (str "ab cd ef") 3).getD [] = [str "ab cd ef"])
    ∧ (str "ab cd ef" = [] → (segmentText newlineBreak (str "ab cd ef") 3).getD [] = [])) :=
  ⟨by decide, segmentText_reassembles newlineBreak (str "ab cd ef") 3 (by decide)⟩

/-- C10: with a positive budget the segmentation loop terminates within
`text.length` iterations, because every split index the loop can accept is
at least `1`; and the positivity precondition is necessary — with
`maxChars = 0` the loop makes no progress on any non-empty input, modelled
as the fuelled loop failing for every amount of fuel. -/
theorem segmentText_terminates (isBreak : Char → Bool) (T : Str) (B : Nat)
    (hB : 1 ≤ B) :
    (segmentText isBreak T B).isSome = true
    ∧ (∀ cand : Str, 1 ≤ chooseSplit isBreak cand B)
    ∧ (∀ T2 : Str, T2 ≠ [] → ∀ fuel, segmentTextFuel isBreak fuel T2 0 = none) := by
  refine ⟨(segmentText_reassembles isBreak T B hB).1,
    fun cand => chooseSplit_pos isBreak cand B hB, ?_⟩
  intro T2 hnil fuel
  induction fuel with
  | zero => simp [segmentTextFuel, hnil]
  | succ fuel ihf =>
    unfold segmentTextFuel
    have hlen : ¬ T2.length ≤ 0 := by
      have : 0 < T2.length := List.length_pos.mpr hnil
      omega
    simp only [if_neg hnil, if_neg hlen]
    have hk : chooseSplit isBreak (T2.take 0) 0 = 0 := rfl
    rw [hk]
    simp only [List.drop_zero]
    rw [ihf]

/-! C5: the chosen split point never falls inside a document-boundary
marker that lies fully inside the candidate window, and is always at or
after the end of the last such marker. -/

theorem occursAt_getElem {α : Type} [DecidableEq α] {s pat : List α} {i k : Nat}
    (h : OccursAt s pat i) (hk : k < pat.length) : s[i + k]? = pat[k]? := by
  have hpat : pat ≠ [] := by
    intro hcon
    rw [hcon] at hk
    simp at hk
  have hle : i + pat.length ≤ s.length := h.le_length hpat
  have hd := occursAt_decompose s pat i h
  have hlt : (s.take i).length = i := by
    rw [List.length_take]
    omega
  conv_lhs => rw [hd]
  rw [List.append_assoc, List.getElem?_append_right (by omega), hlt]
  have hik : i + k - i = k := by omega
  rw [hik, List.getElem?_append_left hk]

theorem contentSeparator_split :
    ContentSeparatorL = ContentSeparatorL.take 22 ++ DefaultSeparatorL := by decide

/-- The last rune of the document-boundary marker is a newline. -/
theorem contentSeparator_last : ContentSeparatorL[23]? = some '\n' := by decide

/-- The paragraph separator occurs inside any window at rune offset 22 past
an occurrence of the document-boundary marker. -/
theorem defaultSeparator_occursAt_of_marker (cand : Str) (p : Nat)
    (hocc : OccursAt cand ContentSeparatorL p) (hle : p ≤ cand.length) :
    OccursAt cand DefaultSeparatorL (p + 22) := by
  have hd := occursAt_decompose cand ContentSeparatorL p hocc
  have hlt : (cand.take p).length = p := by
    rw [List.length_take]
    omega
  have h1 : cand = (cand.take p ++ (ContentSeparatorL.take 22 ++ DefaultSeparatorL)) ++
      cand.drop (p + ContentSeparatorL.length) := by
    conv_rhs => rw [← contentSeparator_split]
    exact hd
  have hform : cand = (cand.take p ++ ContentSeparatorL.take 22) ++ DefaultSeparatorL ++
      cand.drop (p + ContentSeparatorL.length) := by
    rw [List.append_assoc (cand.take p) (ContentSeparatorL.take 22) DefaultSeparatorL]
    exact h1
  have := occursAt_of_append cand DefaultSeparatorL
    (cand.take p ++ ContentSeparatorL.take 22)
    (cand.drop (p + ContentSeparatorL.length)) hform
  have hlen : (cand.take p ++ ContentSeparatorL.take 22).length = p + 22 := by
    rw [List.length_append, hlt]
    have h22 : (ContentSeparatorL.take 22).length = 22 := by decide
    omega
  rw [hlen] at this
  exact this

theorem chooseSplit_eq_some (isBreak : Char → Bool) (cand : Str) (maxChars j : Nat)
    (hj : lastIndex (strBytes cand) (strBytes ContentSeparatorL) = some j) :
    chooseSplit isBreak cand maxChars =
      if j + (strBytes ContentSeparatorL).length ≤ maxChars then
        j + (strBytes ContentSeparatorL).length
      else chooseSplitP2 isBreak cand maxChars := by
  unfold chooseSplit
  rw [hj]

theorem chooseSplitP2_eq_some (isBreak : Char → Bool) (cand : Str) (maxChars j : Nat)
    (hj : lastIndex (strBytes cand) (strBytes DefaultSeparatorL) = some j) :
    chooseSplitP2 isBreak cand maxChars =
      if j + (strBytes DefaultSeparatorL).length ≤ maxChars then
        j + (strBytes DefaultSeparatorL).length
      else chooseSplitP3 isBreak cand maxChars := by
  unfold chooseSplitP2
  rw [hj]

/-- C5: whenever the document-boundary marker occurs fully inside the
candidate window of `B` runes (at rune position `p`, ending at `p + 24`
which is at most `B`), the split index chosen by the segmenter is at or
after the marker's end and in particular never strictly inside the marker;
moreover, the first segment emitted by `segmentText` for such a text is
exactly the window prefix of that length.  The hypothesis `isBreak '\n' =
true` records that Go's `unicode.IsSpace` holds of the newline rune. -/
theorem segmentText_respects_marker (isBreak : Char → Bool) (T : Str) (B p : Nat)
    (hnl : isBreak '\n' = true)
    (hlong : B < T.length)
    (hocc : OccursAt (T.take B) ContentSeparatorL p)
    (hin : p + ContentSeparatorL.length ≤ B) :
    p + ContentSeparatorL.length ≤ chooseSplit isBreak (T.take B) B
    ∧ ¬ (p < chooseSplit isBreak (T.take B) B ∧
         chooseSplit isBreak (T.take B) B < p + ContentSeparatorL.length)
    ∧ ((segmentText isBreak T B).getD []).headD []
        = T.take (chooseSplit isBreak (T.take B) B) := by
  have hsepl : ContentSeparatorL.length = 24 := by decide
  have hcsb : (strBytes ContentSeparatorL).length = 24 := by decide
  have hnnb : (strBytes DefaultSeparatorL).length = 2 := by decide
  have hcand : (T.take B).length = B := by
    rw [List.length_take]
    omega
  have hpB : p + 24 ≤ B := by omega
  have hmain : p + 24 ≤ chooseSplit isBreak (T.take B) B := by
    have hb0occ := strBytes_occursAt (T.take B) ContentSeparatorL p hocc
    have hb0ge : p ≤ (strBytes ((T.take B).take p)).length :=
      take_strBytes_length_ge (T.take B) p (by omega)
    rcases lastIndex_ge (strBytes (T.take B)) (strBytes ContentSeparatorL) _
      (by decide) hb0occ with ⟨j, hj, hjge⟩
    rw [chooseSplit_eq_some isBreak (T.take B) B j hj]
    by_cases h24 : j + (strBytes ContentSeparatorL).length ≤ B
    · rw [if_pos h24]
      omega
    · rw [if_neg h24]
      have hocc2 := defaultSeparator_occursAt_of_marker (T.take B) p hocc (by omega)
      have hb2occ := strBytes_occursAt (T.take B) DefaultSeparatorL (p + 22) hocc2
      have hb2ge : p + 22 ≤ (strBytes ((T.take B).take (p + 22))).length :=
        take_strBytes_length_ge (T.take B) (p + 22) (by omega)
      rcases lastIndex_ge (strBytes (T.take B)) (strBytes DefaultSeparatorL) _
        (by decide) hb2occ with ⟨j2, hj2, hj2ge⟩
      rw [chooseSplitP2_eq_some isBreak (T.take B) B j2 hj2]
      by_cases h2B : j2 + (strBytes DefaultSeparatorL).length ≤ B
      · rw [if_pos h2B]
        omega
      · rw [if_neg h2B]
        unfold chooseSplitP3
        have hget : (T.take B).getD (p + 23) 'A' = '\n' := by
          have h23 := occursAt_getElem hocc (k := 23) (by omega)
          rw [contentSeparator_last] at h23
          rw [List.getD_eq_getElem?_getD, h23]
          rfl
        have hbr : isBreak ((T.take B).getD (p + 23) 'A') = true := by
          rw [hget]
          exact hnl
        rw [hcand]
        cases hm : lastMeaningfulBreak isBreak (T.take B) (max 0 (B - lookback)) with
        | none => exact (show p + 24 ≤ B by omega)
        | some i =>
          show p + 24 ≤ i + 1
          by_cases hst : max 0 (B - lookback) ≤ p + 23
          · rcases lastMeaningfulBreak_ge isBreak (T.take B) (max 0 (B - lookback))
              (p + 23) hst (by omega) hbr with ⟨i2, hi2, hgei⟩
            rw [hm] at hi2
            injection hi2 with hii
            omega
          · have hs := lastMeaningfulBreak_some_spec isBreak (T.take B) _ i hm
            omega
  refine ⟨by omega, by omega, ?_⟩
  have hB1 : 1 ≤ B := by omega
  have hnilT : T ≠ [] := by
    intro hcon
    rw [hcon] at hlong
    simp at hlong
  cases hT : T.length with
  | zero => omega
  | succ n =>
    have hk1 := chooseSplit_pos isBreak (T.take B) B hB1
    have hkB := chooseSplit_le isBreak (T.take B) B (by omega)
    rcases segmentTextFuel_spec isBreak B hB1 n
      (T.drop (chooseSplit isBreak (T.take B) B)) (by rw [List.length_drop]; omega) with
      ⟨rest, hrest, _, _⟩
    have hstep : segmentText isBreak T B
        = some (T.take (chooseSplit isBreak (T.take B) B) :: rest) := by
      unfold segmentText
      rw [hT]
      unfold segmentTextFuel
      rw [if_neg hnilT, if_neg (show ¬ T.length ≤ B by omega)]
      simp only [hrest]
    rw [hstep]
    rfl

/-- Witness for C5 at a concrete input: `B = 26`, the marker starts at rune
position 2 and ends exactly at the window's end. -/
theorem segmentText_respects_marker_witness :
    newlineBreak '\n' = true
    ∧ 26 < (str "ab" ++ ContentSeparatorL ++ str "xyz").length
    ∧ OccursAt ((str "ab" ++ ContentSeparatorL ++ str "xyz").take 26) ContentSeparatorL 2
    ∧ 2 + ContentSeparatorL.length ≤ 26
    ∧ (2 + ContentSeparatorL.length ≤
        chooseSplit newlineBreak ((str "ab" ++ ContentSeparatorL ++ str "xyz").take 26) 26
      ∧ ¬ (2 < chooseSplit newlineBreak ((str "ab" ++ ContentSeparatorL ++ str "xyz").take 26) 26
          ∧ chooseSplit newlineBreak ((str "ab" ++ ContentSeparatorL ++ str "xyz").take 26) 26
              < 2 + ContentSeparatorL.length)
      ∧ ((segmentText newlineBreak (str "ab" ++ ContentSeparatorL ++ str "xyz") 26).getD []).headD []
          = (str "ab" ++ ContentSeparatorL ++ str "xyz").take
              (chooseSplit newlineBreak ((str "ab" ++ ContentSeparatorL ++ str "xyz").take 26) 26)) :=
  ⟨by decide, by decide, by decide, by decide,
    segmentText_respects_marker newlineBreak (str "ab" ++ ContentSeparatorL ++ str "xyz") 26 2
      (by decide) (by decide) (by decide) (by decide)⟩

/-- Witness for C10 at a concrete input. -/
theorem segmentText_terminates_witness :
    1 ≤ 2 ∧
    ((segmentText newlineBreak (str "abcde") 2).isSome = true
    ∧ (∀ cand : Str, 1 ≤ chooseSplit newlineBreak cand 2)
    ∧ (∀ T2 : Str, T2 ≠ [] → ∀ fuel, segmentTextFuel newlineBreak fuel T2 0 = none)) :=
  ⟨by decide, segmentText_terminates newlineBreak (str "abcde") 2 (by decide)⟩

/-! Script extraction (`ExtractTextBetweenTags` in `internal/cleaner/utils.go`
and the fallback logic of `GenerateScriptForVoicevox` in
`internal/cleaner/cleaner.go`).  The markers are ASCII, so byte indices of
the source coincide with rune indices here. -/

/-- Go's `unicode.IsSpace`: the Unicode White_Space property. -/
def goIsSpace (c : Char) : Bool :=
  (9 ≤ c.toNat && c.toNat ≤ 13) || c.toNat == 32 || c.toNat == 0x85 || c.toNat == 0xA0 ||
  c.toNat == 0x1680 || (0x2000 ≤ c.toNat && c.toNat ≤ 0x200A) ||
  c.toNat == 0x2028 || c.toNat == 0x2029 || c.toNat == 0x202F || c.toNat == 0x205F ||
  c.toNat == 0x3000

/-- Go's `strings.TrimSpace`: drop leading and trailing white space. -/
def trimSpace (l : Str) : Str :=
  ((l.dropWhile goIsSpace).reverse.dropWhile goIsSpace).reverse

/-- Go's `strings.ToUpper` restricted to the ASCII letters that appear in
the tag constants of the source. -/
def asciiUpper (c : Char) : Char :=
  if 'a' ≤ c && c ≤ 'z' then Char.ofNat (c.toNat - 32) else c

/-- `ExtractTextBetweenTags` of the source: the text between
`<STARTTAG>` and the first of `</ENDTAG>` (preferred) or `<ENDTAG>`,
trimmed; empty when either marker is missing. -/
def ExtractTextBetweenTags (text startTag endTag : Str) : Str :=
  let startMarker := str "<" ++ startTag.map asciiUpper ++ str ">"
  let endMarker1 := str "</" ++ endTag.map asciiUpper ++ str ">"
  let endMarker2 := str "<" ++ endTag.map asciiUpper ++ str ">"
  match firstIndex text startMarker with
  | none => []
  | some idx0 =>
    let startIndex := idx0 + startMarker.length
    let endIndex : Option Nat :=
      match firstIndex (text.drop startIndex) endMarker1 with
      | some j => some (j + startIndex)
      | none =>
        match firstIndex (text.drop startIndex) endMarker2 with
        | some j => some (j + startIndex)
        | none => none
    match endIndex with
    | none => []
    | some e =>
      if e < startIndex then []
      else trimSpace ((text.drop startIndex).take (e - startIndex))

/-- The marker-handling tail of `GenerateScriptForVoicevox`: extract the
script between `SCRIPT_START`/`SCRIPT_END`, falling back to the whole raw
model response when the extraction is empty. -/
def scriptFromResponse (responseText : Str) : Str :=
  let scriptText := ExtractTextBetweenTags responseText (str "SCRIPT_START") (str "SCRIPT_END")
  if scriptText = [] then responseText else scriptText

/-- C6 counterexample: for the response `"<SCRIPT_START></SCRIPT_END>"`
the start marker is present and is followed by the closed end marker, and
the (trimmed) substring between the markers is empty — yet
`GenerateScriptForVoicevox` returns the whole raw response, not that empty
substring, contradicting the claim as stated. -/
theorem script_extraction_counterexample :
    firstIndex (str "<SCRIPT_START></SCRIPT_END>") (str "<SCRIPT_START>") = some 0
    ∧ firstIndex ((str "<SCRIPT_START></SCRIPT_END>").drop 14) (str "</SCRIPT_END>") = some 0
    ∧ trimSpace (((str "<SCRIPT_START></SCRIPT_END>").drop 14).take 0) = []
    ∧ scriptFromResponse (str "<SCRIPT_START></SCRIPT_END>")
        = str "<SCRIPT_START></SCRIPT_END>"
    ∧ scriptFromResponse (str "<SCRIPT_START></SCRIPT_END>")
        ≠ trimSpace (((str "<SCRIPT_START></SCRIPT_END>").drop 14).take 0) := by
  refine ⟨by decide, by decide, by decide, by decide, by decide⟩

/-- C6 (amended): with markers present and a non-empty trimmed body the
extraction returns the trimmed substring between the markers (whole
response when the trimmed body is empty); the two concrete marker examples
of the spec hold; and with no start marker, or with neither end-marker
form after the start marker, the whole raw response is returned
unchanged. -/
theorem script_extraction_spec :
    scriptFromResponse (str "noise <SCRIPT_START> hello </SCRIPT_END> trailer") = str "hello"
    ∧ scriptFromResponse (str "<SCRIPT_START>hi<SCRIPT_END>") = str "hi"
    ∧ (∀ text : Str, ∀ i j : Nat,
        firstIndex text (str "<SCRIPT_START>") = some i →
        firstIndex (text.drop (i + 14)) (str "</SCRIPT_END>") = some j →
        scriptFromResponse text =
          (if trimSpace ((text.drop (i + 14)).take j) = [] then text
           else trimSpace ((text.drop (i + 14)).take j)))
    ∧ (∀ text : Str, firstIndex text (str "<SCRIPT_START>") = none →
        scriptFromResponse text = text)
    ∧ (∀ text : Str, ∀ i : Nat,
        firstIndex text (str "<SCRIPT_START>") = some i →
        firstIndex (text.drop (i + 14)) (str "</SCRIPT_END>") = none →
        firstIndex (text.drop (i + 14)) (str "<SCRIPT_END>") = none →
        scriptFromResponse text = text) := by
  have hsm : str "<" ++ (str "SCRIPT_START").map asciiUpper ++ str ">"
      = str "<SCRIPT_START>" := by decide
  have hem1 : str "</" ++ (str "SCRIPT_END").map asciiUpper ++ str ">"
      = str "</SCRIPT_END>" := by decide
  have hem2 : str "<" ++ (str "SCRIPT_END").map asciiUpper ++ str ">"
      = str "<SCRIPT_END>" := by decide
  have hl14 : (str "<SCRIPT_START>").length = 14 := by decide
  refine ⟨by decide, by decide, ?_, ?_, ?_⟩
  · intro text i j hi hj
    unfold scriptFromResponse ExtractTextBetweenTags
    simp only [hsm, hem1, hem2, hl14, hi, hj]
    by_cases hempty : trimSpace ((text.drop (i + 14)).take j) = []
    · rw [if_pos hempty]
      have hsub : j + (i + 14) - (i + 14) = j := by omega
      rw [if_neg (show ¬ j + (i + 14) < i + 14 by omega), hsub, if_pos hempty]
    · rw [if_neg hempty]
      have hsub : j + (i + 14) - (i + 14) = j := by omega
      rw [if_neg (show ¬ j + (i + 14) < i + 14 by omega), hsub, if_neg hempty]
  · intro text hnone
    unfold scriptFromResponse ExtractTextBetweenTags
    simp only [hsm, hem1, hem2, hl14, hnone]
    simp
  · intro text i hi hn1 hn2
    unfold scriptFromResponse ExtractTextBetweenTags
    simp only [hsm, hem1, hem2, hl14, hi, hn1, hn2]
    simp

/-- Witness for C6 (amended) at a concrete response with non-empty body. -/
theorem script_extraction_spec_witness :
    firstIndex (str "x<SCRIPT_START>ok</SCRIPT_END>y") (str "<SCRIPT_START>") = some 1
    ∧ firstIndex ((str "x<SCRIPT_START>ok</SCRIPT_END>y").drop 15) (str "</SCRIPT_END>") = some 2
    ∧ scriptFromResponse (str "x<SCRIPT_START>ok</SCRIPT_END>y")
        = (if trimSpace (((str "x<SCRIPT_START>ok</SCRIPT_END>y").drop 15).take 2) = []
           then str "x<SCRIPT_START>ok</SCRIPT_END>y"
           else trimSpace (((str "x<SCRIPT_START>ok</SCRIPT_END>y").drop 15).take 2)) :=
  ⟨by decide, by decide,
    script_extraction_spec.2.2.1 (str "x<SCRIPT_START>ok</SCRIPT_END>y") 1 2
      (by decide) (by decide)⟩

/-! Source results, content combination (`CombineContents` in
`internal/cleaner/utils.go`), the post-scrape success gate of
`Pipeline.Run`, and the no-AI output mode (`processWithoutAI`), all in
`internal/pipeline/pipeline.go`. -/

/-- The per-URL fetch/extract outcome (`types.URLResult`): a `none` error
marks success. -/
structure URLResult where
  url : Str
  content : Str
  error : Option Str
deriving DecidableEq

/-- Go `strings.Join`: elements separated by `sep`. -/
def joinSep (sep : Str) : List Str → Str
  | [] => []
  | [s] => s
  | s :: rest => s ++ sep ++ joinSep sep rest

/-- Title lookup with URL fallback: `titlesMap[res.URL]`, or the URL itself
when the map yields the empty string. -/
def lookupTitle (titlesMap : Str → Str) (r : URLResult) : Str :=
  if titlesMap r.url = [] then r.url else titlesMap r.url

/-- The source header written before each combined document: index, title
and URL lines. -/
def combineHeader (i : Nat) (title url : Str) : Str :=
  str "--- SOURCE DOCUMENT " ++ natStr i ++ str " ---\n" ++
  str "TITLE: " ++ title ++ str "\n" ++
  str "URL: " ++ url ++ str "\n\n"

/-- The writer loop of `CombineContents` over the already-filtered results:
header, content, and the boundary marker after every document except the
last. -/
def combineLoop (titlesMap : Str → Str) : Nat → List URLResult → Str
  | _, [] => []
  | i, r :: rest =>
    combineHeader (i + 1) (lookupTitle titlesMap r) r.url ++ r.content ++
    (if rest = [] then [] else ContentSeparatorL) ++ combineLoop titlesMap (i + 1) rest

/-- `CombineContents` of the source: keeps exactly the results with a nil
error and non-empty content. -/
def CombineContents (results : List URLResult) (titlesMap : Str → Str) : Str :=
  combineLoop titlesMap 0 (results.filter (fun r => r.error.isNone && !r.content.isEmpty))

/-- The combination described by claim C7, built from the claim's words: the
documents of all results whose error field is `none`, joined by the
document-boundary marker. -/
def combineClaimed (results : List URLResult) (titlesMap : Str → Str) : Str :=
  joinSep ContentSeparatorL
    (((results.filter (fun r => r.error.isNone)).enum).map
      (fun p => combineHeader (p.1 + 1) (lookupTitle titlesMap p.2) p.2.url ++ p.2.content))

/-- The amended combination: as claimed, but restricted to results whose
error field is `none` and whose content is non-empty. -/
def combineAmended (results : List URLResult) (titlesMap : Str → Str) : Str :=
  joinSep ContentSeparatorL
    (((results.filter (fun r => r.error.isNone && !r.content.isEmpty)).enum).map
      (fun p => combineHeader (p.1 + 1) (lookupTitle titlesMap p.2) p.2.url ++ p.2.content))

/-- C7 counterexample: a single result with a nil error but empty content
contributes nothing in the source, while the claim's description makes it
contribute a full source header. -/
theorem combine_contents_counterexample :
    CombineContents [⟨str "u", [], none⟩] (fun _ => str "T") = []
    ∧ combineClaimed [⟨str "u", [], none⟩] (fun _ => str "T")
        = combineHeader 1 (str "T") (str "u")
    ∧ CombineContents [⟨str "u", [], none⟩] (fun _ => str "T")
        ≠ combineClaimed [⟨str "u", [], none⟩] (fun _ => str "T") := by
  refine ⟨by decide, by decide, by decide⟩

theorem joinSep_cons_ne (sep s : Str) (l : List Str) (h : l ≠ []) :
    joinSep sep (s :: l) = s ++ sep ++ joinSep sep l := by
  cases l with
  | nil => exact absurd rfl h
  | cons a t => rfl

theorem combineLoop_eq_joinSep (titlesMap : Str → Str) (l : List URLResult) :
    ∀ i, combineLoop titlesMap i l
      = joinSep ContentSeparatorL
          ((l.enumFrom i).map
            (fun p => combineHeader (p.1 + 1) (lookupTitle titlesMap p.2) p.2.url ++ p.2.content)) := by
  induction l with
  | nil => intro i; rfl
  | cons r rest ih =>
    intro i
    cases rest with
    | nil => simp [combineLoop, joinSep, List.enumFrom]
    | cons x xs =>
      have hne : x :: xs ≠ ([] : List URLResult) := by simp
      unfold combineLoop
      rw [if_neg hne, ih (i + 1)]
      have hmapne :
          (List.enumFrom (i + 1) (x :: xs)).map
            (fun p => combineHeader (p.1 + 1) (lookupTitle titlesMap p.2) p.2.url ++ p.2.content)
          ≠ [] := by
        simp [List.enumFrom]
      rw [show List.enumFrom i (r :: x :: xs) = (i, r) :: List.enumFrom (i + 1) (x :: xs)
        from rfl, List.map_cons, joinSep_cons_ne _ _ _ hmapne]

/-- C7 (amended): `CombineContents` equals the claimed concatenation of
header-plus-content documents joined by the boundary marker, taken over the
results with a nil error and non-empty content. -/
theorem combine_contents_amended (results : List URLResult) (titlesMap : Str → Str) :
    CombineContents results titlesMap = combineAmended results titlesMap := by
  unfold CombineContents combineAmended
  rw [combineLoop_eq_joinSep]
  rfl

/-- The success filter of `Pipeline.Run`: results whose `Error` is nil, in
input order. -/
def successfulOf (results : List URLResult) : List URLResult :=
  results.filter (fun r => r.error.isNone)

/-- The fatal message of the zero-success gate. -/
def allFetchesFailedMsg : Str := str "処理すべき記事本文が一つも見つかりませんでした"

/-- The post-scrape gate of `Pipeline.Run`: fail exactly when no result
succeeded, otherwise hand the successful results onward. -/
def runGate (results : List URLResult) : Except Str (List URLResult) :=
  if (successfulOf results).length = 0 then Except.error allFetchesFailedMsg
  else Except.ok (successfulOf results)

/-- `Pipeline.Run` after the fetch/extract step, with the downstream
processing (AI chain or raw concatenation plus output) abstracted as
`process`. -/
def runAfterScrape (process : List URLResult → Except Str Str)
    (results : List URLResult) : Except Str Str :=
  match runGate results with
  | Except.error e => Except.error e
  | Except.ok rs => process rs

theorem runGate_ok (results : List URLResult) (hne : successfulOf results ≠ []) :
    runGate results = Except.ok (successfulOf results) := by
  unfold runGate
  rw [if_neg (by simp [List.length_eq_zero, hne])]

theorem runAfterScrape_ok (process : List URLResult → Except Str Str)
    (results : List URLResult) (hne : successfulOf results ≠ []) :
    runAfterScrape process results = process (successfulOf results) := by
  unfold runAfterScrape
  rw [runGate_ok results hne]

/-- C4: after the fetch/extract step the run fails exactly when zero
results succeeded (with the all-fetches-failed message), and whenever at
least one result succeeded the run proceeds, handing exactly the successful
results — those with a nil error, in input order — to the downstream
processing. -/
theorem run_gate_spec (process : List URLResult → Except Str Str)
    (results : List URLResult) :
    (runGate results = Except.error allFetchesFailedMsg ↔ successfulOf results = [])
    ∧ (∀ rs, runGate results = Except.ok rs → rs = successfulOf results)
    ∧ (successfulOf results ≠ [] →
        runAfterScrape process results = process (successfulOf results)) := by
  refine ⟨⟨?_, ?_⟩, ?_, runAfterScrape_ok process results⟩
  · intro h
    by_cases hz : (successfulOf results).length = 0
    · exact List.length_eq_zero.mp hz
    · unfold runGate at h
      rw [if_neg hz] at h
      cases h
  · intro h
    unfold runGate
    rw [if_pos (by simp [h])]
  · intro rs h
    by_cases hz : (successfulOf results).length = 0
    · unfold runGate at h
      rw [if_pos hz] at h
      cases h
    · unfold runGate at h
      rw [if_neg hz] at h
      cases h
      rfl

/-- Witness for C4 at a concrete input: one success among two results. -/
theorem run_gate_spec_witness :
    runAfterScrape (fun rs => Except.ok (joinSep [] (rs.map URLResult.content)))
        [⟨str "u", str "c", none⟩, ⟨str "v", str "d", some (str "boom")⟩]
      = (fun rs => Except.ok (joinSep [] (rs.map URLResult.content)))
          (successfulOf [⟨str "u", str "c", none⟩, ⟨str "v", str "d", some (str "boom")⟩]) :=
  (run_gate_spec (fun rs => Except.ok (joinSep [] (rs.map URLResult.content)))
    [⟨str "u", str "c", none⟩, ⟨str "v", str "d", some (str "boom")⟩]).2.2 (by decide)

/-- One markdown section of the no-AI output, as described by the spec:
H2 title (URL fallback), content, horizontal rule. -/
def mdSection (titlesMap : Str → Str) (r : URLResult) : Str :=
  str "## " ++ (if titlesMap r.url = [] then r.url else titlesMap r.url) ++ str "\n\n"
    ++ r.content ++ str "\n\n---\n\n"

/-- `processWithoutAI` of the source: the feed-title header followed by one
markdown section per successful result, written by the builder loop. -/
def processWithoutAI (feedTitle : Str) (successfulResults : List URLResult)
    (titlesMap : Str → Str) : Str :=
  successfulResults.foldl
    (fun acc r =>
      acc ++ str "## " ++ (if titlesMap r.url = [] then r.url else titlesMap r.url)
        ++ str "\n\n" ++ r.content ++ str "\n\n---\n\n")
    (str "# " ++ feedTitle ++ str "\n\n")

theorem processWithoutAI_foldl (titlesMap : Str → Str) (l : List URLResult) :
    ∀ acc : Str,
      l.foldl
        (fun acc r =>
          acc ++ str "## " ++ (if titlesMap r.url = [] then r.url else titlesMap r.url)
            ++ str "\n\n" ++ r.content ++ str "\n\n---\n\n") acc
      = acc ++ (l.map (mdSection titlesMap)).flatten := by
  induction l with
  | nil => intro acc; simp
  | cons r rest ih =>
    intro acc
    rw [List.foldl_cons, ih]
    simp [mdSection, List.append_assoc]

/-- C8: with no text-processing collaborator configured and at least one
successful result, the run's output is the feed-title markdown header
followed, for each successful result in the order the successes were
produced, by the markdown section `## title\n\ncontent\n\n---\n\n` (URL as
title when no title is available). -/
theorem process_without_ai_spec (feedTitle : Str) (results : List URLResult)
    (titlesMap : Str → Str) :
    processWithoutAI feedTitle (successfulOf results) titlesMap
      = str "# " ++ feedTitle ++ str "\n\n"
        ++ ((successfulOf results).map (mdSection titlesMap)).flatten
    ∧ (successfulOf results ≠ [] →
        runAfterScrape
          (fun rs => Except.ok (processWithoutAI feedTitle rs titlesMap)) results
        = Except.ok (str "# " ++ feedTitle ++ str "\n\n"
            ++ ((successfulOf results).map (mdSection titlesMap)).flatten)) := by
  have hfold := processWithoutAI_foldl titlesMap (successfulOf results)
    (str "# " ++ feedTitle ++ str "\n\n")
  have hmain : processWithoutAI feedTitle (successfulOf results) titlesMap
      = str "# " ++ feedTitle ++ str "\n\n"
        ++ ((successfulOf results).map (mdSection titlesMap)).flatten := by
    unfold processWithoutAI
    rw [hfold]
  refine ⟨hmain, ?_⟩
  intro hne
  rw [runAfterScrape_ok _ results hne, hmain]

/-- Witness for C8: a feed of three links of which two extract
successfully, with distinct titles. -/
theorem process_without_ai_spec_witness :
    runAfterScrape
      (fun rs => Except.ok (processWithoutAI (str "Feed") rs
        (fun u => if u = str "u1" then str "t1" else if u = str "u2" then str "t2" else [])))
      [⟨str "u1", str "c1", none⟩, ⟨str "u0", [], some (str "fetch failed")⟩,
        ⟨str "u2", str "c2", none⟩]
    = Except.ok (str "# " ++ str "Feed" ++ str "\n\n"
        ++ ((successfulOf
              [⟨str "u1", str "c1", none⟩, ⟨str "u0", [], some (str "fetch failed")⟩,
                ⟨str "u2", str "c2", none⟩]).map
            (mdSection
              (fun u => if u = str "u1" then str "t1" else if u = str "u2" then str "t2" else []))).flatten) :=
  (process_without_ai_spec (str "Feed")
    [⟨str "u1", str "c1", none⟩, ⟨str "u0", [], some (str "fetch failed")⟩,
      ⟨str "u2", str "c2", none⟩]
    (fun u => if u = str "u1" then str "t1" else if u = str "u2" then str "t2" else [])).2
    (by decide)

/-! The parallel map phase (`processSegmentsInParallel` in
`internal/cleaner/utils.go`).  One goroutine per segment sends a
`(index, summary, err)` record on a buffered channel; after the join the
records are drained in channel-arrival order.  The model makes the
per-segment collaborator outcome (`limiter.Wait`, prompt build, model
call) explicit as a `TaskOutcome`, and the channel-arrival order explicit
as a permutation `arrival` of the segment positions. -/

/-- Outcome of the per-segment goroutine body before it sends its record:
either the limiter wait was cancelled, the prompt build failed, the model
call failed, or the call succeeded with a summary text. -/
inductive TaskOutcome where
  | ok (text : Str)
  | waitCancelled (e : Str)
  | promptFailed (e : Str)
  | callFailed (e : Str)
deriving DecidableEq

/-- The record sent on the results channel: the 1-based segment index, the
summary, and the error (nil on success). -/
structure MapResult where
  index : Nat
  summary : Str
  err : Option Str
deriving DecidableEq

/-- The record sent by the goroutine for the segment at 0-based position
`i`, exactly as built by the source (1-based index; error messages wrapped
with the stage prefixes of the source). -/
def taskResult (i : Nat) : TaskOutcome → MapResult
  | .ok t => ⟨i + 1, t, none⟩
  | .waitCancelled e => ⟨i + 1, [], some (str "LLMリミット待機中にキャンセル: " ++ e)⟩
  | .promptFailed e => ⟨i + 1, [], some (str "プロンプト生成失敗: " ++ e)⟩
  | .callFailed e => ⟨i + 1, [], some (str "LLM処理失敗: " ++ e)⟩

/-- The drain loop after `wg.Wait()`: accumulate per-segment error messages
(tagged with the 1-based index) and summaries in channel-arrival order,
then either aggregate all errors into a single error or return the
summaries. -/
def collectResults (arrivals : List MapResult) : Except Str (List Str) :=
  let errorMessages := arrivals.filterMap
    (fun r => r.err.map (fun e => str "セグメント " ++ natStr r.index ++ str ": " ++ e))
  let summaries := arrivals.filterMap
    (fun r => match r.err with | none => some r.summary | some _ => none)
  if 0 < errorMessages.length then
    Except.error (str "Mapフェーズで " ++ natStr errorMessages.length
      ++ str " 件のエラーが発生しました:\n- " ++ joinSep (str "\n- ") errorMessages)
  else Except.ok summaries

/-- The map phase for segment outcomes `outcomes`, with the records drained
in the channel-arrival order `arrival` (a permutation of the positions). -/
def processSegmentsModel (outcomes : List TaskOutcome) (arrival : List Nat) :
    Except Str (List Str) :=
  collectResults (arrival.map (fun i => taskResult i (outcomes.getD i (TaskOutcome.ok []))))

def isOkOutcome : TaskOutcome → Bool
  | .ok _ => true
  | _ => false

def exceptIsError : Except Str (List Str) → Bool
  | .error _ => true
  | .ok _ => false

def errMsgOf : Except Str (List Str) → Str
  | .error e => e
  | .ok _ => []

def okListOf : Except Str (List Str) → List Str
  | .ok l => l
  | .error _ => []

/-- C2: the source appends summaries in channel-arrival order, not in
segment-position order.  With two segments both succeeding and the second
segment's record arriving first, the returned list is the summaries in
arrival order `["B", "A"]`, which differs from the position order
`["A", "B"]` required by the claim — exactly the ordering hazard the spec
itself flags as a correctness bug of completion-order collection. -/
theorem map_phase_order_bug :
    List.Perm [1, 0] (List.range 2)
    ∧ processSegmentsModel [TaskOutcome.ok (str "A"), TaskOutcome.ok (str "B")] [1, 0]
        = Except.ok [str "B", str "A"]
    ∧ ([str "B", str "A"] : List Str) ≠ [str "A", str "B"] := by
  refine ⟨by decide, by decide, by decide⟩

theorem mem_joinSep_decompose (sep : Str) :
    ∀ (parts : List Str) (m : Str), m ∈ parts →
      ∃ pre post, joinSep sep parts = pre ++ m ++ post := by
  intro parts
  induction parts with
  | nil =>
    intro m hm
    cases hm
  | cons s rest ih =>
    intro m hm
    rcases List.mem_cons.mp hm with h | h
    · subst h
      cases rest with
      | nil => exact ⟨[], [], by simp [joinSep]⟩
      | cons a t =>
        refine ⟨[], sep ++ joinSep sep (a :: t), ?_⟩
        rw [joinSep_cons_ne sep m (a :: t) (by simp)]
        simp [List.append_assoc]
    · rcases ih m h with ⟨pre, post, hpre⟩
      have hne : rest ≠ [] := by
        intro hcon
        rw [hcon] at h
        cases h
      refine ⟨s ++ sep ++ pre, post, ?_⟩
      rw [joinSep_cons_ne sep s rest hne, hpre]
      simp [List.append_assoc]

theorem occursSomewhere_of_decompose (s pat pre post : Str) (hpat : pat ≠ [])
    (h : s = pre ++ pat ++ post) : occursSomewhere s pat = true :=
  occursSomewhere_of_occursAt s pat pre.length hpat (occursAt_of_append s pat pre post h)

theorem filterMap_length_of_all_some {β γ : Type} (f : β → Option γ) :
    ∀ l : List β, (∀ b ∈ l, (f b).isSome = true) →
      (l.filterMap f).length = l.length := by
  intro l
  induction l with
  | nil => intro _; rfl
  | cons b rest ih =>
    intro h
    have hb := h b (by simp)
    rcases Option.isSome_iff_exists.mp hb with ⟨c, hc⟩
    rw [List.filterMap_cons, hc, List.length_cons, ih (fun x hx => h x (by simp [hx]))]
    rfl

/-- A 1-based position tag is a non-empty string. -/
theorem posTag_ne_nil (i : Nat) :
    str "セグメント " ++ natStr (i + 1) ++ str ":" ≠ [] := by
  intro h
  have hlen : (str "セグメント " ++ natStr (i + 1) ++ str ":").length = 0 := by rw [h]; rfl
  rw [List.length_append, List.length_append] at hlen
  have h1 : (str ":").length = 1 := by decide
  omega

/-- C3: whenever at least one per-segment task fails, the map phase returns
a single aggregated error — no summaries — whose message contains the
1-based position tag of every failed segment; and when all tasks succeed it
returns the summaries, one per segment, with no error.  The hypothesis
makes the channel-arrival order an arbitrary permutation of the segment
positions. -/
theorem map_phase_error_aggregation (outcomes : List TaskOutcome) (arrival : List Nat)
    (hperm : List.Perm arrival (List.range outcomes.length)) :
    ((outcomes.any (fun o => !isOkOutcome o)) = true →
      exceptIsError (processSegmentsModel outcomes arrival) = true
      ∧ ∀ i, i < outcomes.length →
          isOkOutcome (outcomes.getD i (TaskOutcome.ok [])) = false →
          occursSomewhere (errMsgOf (processSegmentsModel outcomes arrival))
            (str "セグメント " ++ natStr (i + 1) ++ str ":") = true)
    ∧ ((outcomes.all isOkOutcome) = true →
      processSegmentsModel outcomes arrival
        = Except.ok (okListOf (processSegmentsModel outcomes arrival))
      ∧ (okListOf (processSegmentsModel outcomes arrival)).length = outcomes.length) := by
  constructor
  · intro hany
    rcases List.any_eq_true.mp hany with ⟨o, ho, hno⟩
    rcases List.mem_iff_get.mp ho with ⟨⟨i0, hi0⟩, hgo⟩
    have hmemErr : ∀ i, i < outcomes.length →
        isOkOutcome (outcomes.getD i (TaskOutcome.ok [])) = false →
        ∃ e, (str "セグメント " ++ natStr (i + 1) ++ str ": " ++ e) ∈
          (arrival.map (fun k => taskResult k (outcomes.getD k (TaskOutcome.ok [])))).filterMap
            (fun r => r.err.map (fun e => str "セグメント " ++ natStr r.index ++ str ": " ++ e)) := by
      intro i hi hfail
      have hiarr : i ∈ arrival := by
        rw [hperm.mem_iff, List.mem_range]
        exact hi
      have hrec : taskResult i (outcomes.getD i (TaskOutcome.ok [])) ∈
          arrival.map (fun k => taskResult k (outcomes.getD k (TaskOutcome.ok []))) :=
        List.mem_map_of_mem _ hiarr
      cases hcase : outcomes.getD i (TaskOutcome.ok []) with
      | ok t =>
        rw [hcase] at hfail
        simp [isOkOutcome] at hfail
      | waitCancelled e =>
        refine ⟨str "LLMリミット待機中にキャンセル: " ++ e, ?_⟩
        rw [List.mem_filterMap]
        refine ⟨taskResult i (outcomes.getD i (TaskOutcome.ok [])), hrec, ?_⟩
        rw [hcase]
        rfl
      | promptFailed e =>
        refine ⟨str "プロンプト生成失敗: " ++ e, ?_⟩
        rw [List.mem_filterMap]
        refine ⟨taskResult i (outcomes.getD i (TaskOutcome.ok [])), hrec, ?_⟩
        rw [hcase]
        rfl
      | callFailed e =>
        refine ⟨str "LLM処理失敗: " ++ e, ?_⟩
        rw [List.mem_filterMap]
        refine ⟨taskResult i (outcomes.getD i (TaskOutcome.ok [])), hrec, ?_⟩
        rw [hcase]
        rfl
    have hfail0 : isOkOutcome (outcomes.getD i0 (TaskOutcome.ok [])) = false := by
      rw [List.getD_eq_getElem?_getD, List.getElem?_eq_getElem hi0]
      have hgo2 : outcomes[i0] = o := hgo
      rw [hgo2]
      cases o with
      | ok t => simp [isOkOutcome] at hno
      | waitCancelled e => rfl
      | promptFailed e => rfl
      | callFailed e => rfl
    rcases hmemErr i0 hi0 hfail0 with ⟨e0, he0⟩
    have herrne : 0 <
        ((arrival.map (fun k => taskResult k (outcomes.getD k (TaskOutcome.ok [])))).filterMap
          (fun r => r.err.map (fun e => str "セグメント " ++ natStr r.index ++ str ": " ++ e))).length :=
      List.length_pos.mpr (List.ne_nil_of_mem he0)
    have hout : processSegmentsModel outcomes arrival
        = Except.error (str "Mapフェーズで "
            ++ natStr ((arrival.map (fun k => taskResult k (outcomes.getD k (TaskOutcome.ok [])))).filterMap
                (fun r => r.err.map (fun e => str "セグメント " ++ natStr r.index ++ str ": " ++ e))).length
            ++ str " 件のエラーが発生しました:\n- "
            ++ joinSep (str "\n- ")
                ((arrival.map (fun k => taskResult k (outcomes.getD k (TaskOutcome.ok [])))).filterMap
                  (fun r => r.err.map (fun e => str "セグメント " ++ natStr r.index ++ str ": " ++ e)))) := by
      unfold processSegmentsModel collectResults
      rw [if_pos herrne]
    refine ⟨by rw [hout]; rfl, ?_⟩
    intro i hi hfaili
    rcases hmemErr i hi hfaili with ⟨e, he⟩
    rcases mem_joinSep_decompose (str "\n- ") _ _ he with ⟨pre, post, hjoin⟩
    rw [hout]
    apply occursSomewhere_of_decompose _ _
      (str "Mapフェーズで "
        ++ natStr ((arrival.map (fun k => taskResult k (outcomes.getD k (TaskOutcome.ok [])))).filterMap
            (fun r => r.err.map (fun e => str "セグメント " ++ natStr r.index ++ str ": " ++ e))).length
        ++ str " 件のエラーが発生しました:\n- " ++ pre)
      (str " " ++ e ++ post) (posTag_ne_nil i)
    show _ = _
    rw [hjoin]
    have hsplit : str "セグメント " ++ natStr (i + 1) ++ str ": " ++ e
        = (str "セグメント " ++ natStr (i + 1) ++ str ":") ++ (str " " ++ e) := by
      have : str ": " = str ":" ++ str " " := by decide
      rw [this]
      simp [List.append_assoc]
    rw [hsplit]
    simp [errMsgOf, List.append_assoc]
  · intro hall
    have herrnil :
        (arrival.map (fun k => taskResult k (outcomes.getD k (TaskOutcome.ok [])))).filterMap
          (fun r => r.err.map (fun e => str "セグメント " ++ natStr r.index ++ str ": " ++ e)) = [] := by
      rw [List.filterMap_eq_nil_iff]
      intro r hr
      rcases List.mem_map.mp hr with ⟨k, hk, hkr⟩
      have hklt : k < outcomes.length := by
        have := hperm.mem_iff.mp hk
        exact List.mem_range.mp this
      have hko : isOkOutcome (outcomes.getD k (TaskOutcome.ok [])) = true := by
        have := List.all_eq_true.mp hall (outcomes.getD k (TaskOutcome.ok []))
        apply this
        rw [List.getD_eq_getElem?_getD, List.getElem?_eq_getElem hklt]
        exact List.mem_iff_get.mpr ⟨⟨k, hklt⟩, rfl⟩
      cases hcase : outcomes.getD k (TaskOutcome.ok []) with
      | ok t => rw [← hkr, hcase]; rfl
      | waitCancelled e => rw [hcase] at hko; simp [isOkOutcome] at hko
      | promptFailed e => rw [hcase] at hko; simp [isOkOutcome] at hko
      | callFailed e => rw [hcase] at hko; simp [isOkOutcome] at hko
    have hsumlen :
        ((arrival.map (fun k => taskResult k (outcomes.getD k (TaskOutcome.ok [])))).filterMap
          (fun r => match r.err with | none => some r.summary | some _ => none)).length
        = outcomes.length := by
      rw [filterMap_length_of_all_some]
      · rw [List.length_map, hperm.length_eq, List.length_range]
      · intro r hr
        rcases List.mem_map.mp hr with ⟨k, hk, hkr⟩
        have hklt : k < outcomes.length := by
          have := hperm.mem_iff.mp hk
          exact List.mem_range.mp this
        have hko : isOkOutcome (outcomes.getD k (TaskOutcome.ok [])) = true := by
          have := List.all_eq_true.mp hall (outcomes.getD k (TaskOutcome.ok []))
          apply this
          rw [List.getD_eq_getElem?_getD, List.getElem?_eq_getElem hklt]
          exact List.mem_iff_get.mpr ⟨⟨k, hklt⟩, rfl⟩
        cases hcase : outcomes.getD k (TaskOutcome.ok []) with
        | ok t => rw [← hkr, hcase]; rfl
        | waitCancelled e => rw [hcase] at hko; simp [isOkOutcome] at hko
        | promptFailed e => rw [hcase] at hko; simp [isOkOutcome] at hko
        | callFailed e => rw [hcase] at hko; simp [isOkOutcome] at hko
    have hout : processSegmentsModel outcomes arrival
        = Except.ok ((arrival.map (fun k => taskResult k (outcomes.getD k (TaskOutcome.ok [])))).filterMap
            (fun r => match r.err with | none => some r.summary | some _ => none)) := by
      unfold processSegmentsModel collectResults
      rw [if_neg (by rw [herrnil]; simp)]
    rw [hout]
    exact ⟨rfl, hsumlen⟩

/-- Witness for C3: two segments, the second one failing, drained with the
failing record arriving first. -/
theorem map_phase_error_aggregation_witness :
    exceptIsError (processSegmentsModel
        [TaskOutcome.ok (str "A"), TaskOutcome.callFailed (str "boom")] [1, 0]) = true
    ∧ occursSomewhere
        (errMsgOf (processSegmentsModel
          [TaskOutcome.ok (str "A"), TaskOutcome.callFailed (str "boom")] [1, 0]))
        (str "セグメント " ++ natStr (1 + 1) ++ str ":") = true :=
  have h := map_phase_error_aggregation
    [TaskOutcome.ok (str "A"), TaskOutcome.callFailed (str "boom")] [1, 0] (by decide)
  ⟨(h.1 (by decide)).1, (h.1 (by decide)).2 1 (by decide) (by decide)⟩

end ActFeedClean
